import Mathlib

/-!
Verification of the osmosis accumulator helper functions
(`osmoutils/accum/accum_helpers.go`) against their natural-language
specification.

Multi-denomination decimal values (`sdk.DecCoins`) are embedded as lists of
denomination/amount pairs; the cosmos decimal type (`sdk.Dec`) is embedded as
`ℚ`, following the specification's contract for the decimal foundation
library ("exact, deterministic fixed-point decimal numbers").  The DecCoins
operations used by the helper file (`Add`/`safeAdd`, `Sub`/`SafeSub`,
`MulDec`, `IsAnyNegative`, `negative`, `AmountOf`, zero-coin removal) are
translated from the library's documented sorted-merge semantics.  A Go panic
is embedded as `Option.none`.
-/

namespace Accum

/-- A denomination identifier. -/
abbrev Denom := String

/-- One denomination together with a decimal amount (`sdk.DecCoin`). -/
structure DecCoin where
  denom : Denom
  amount : ℚ
deriving DecidableEq, Repr

/-- A multi-denomination decimal value (`sdk.DecCoins`): a list of coins,
canonically sorted strictly by denomination. -/
abbrev DecCoins := List DecCoin

/-- Canonical sortedness of a `DecCoins` value: denominations strictly
increase, hence are unique. -/
def SortedCoins (coins : DecCoins) : Prop :=
  coins.Pairwise (fun a b => a.denom < b.denom)

instance (coins : DecCoins) : Decidable (SortedCoins coins) :=
  List.instDecidablePairwise coins

/-- `removeZeroDecCoins` from the decimal-coin library: drops zero-amount
entries. -/
def removeZeroDecCoins (coins : DecCoins) : DecCoins :=
  coins.filter (fun c => !decide (c.amount = 0))

/-- The loop body of `DecCoins.safeAdd`.  The Go implementation walks the two
sorted coin sets with an index loop; the loop is embedded with an explicit
iteration bound (`fuel`), which starts at the combined length and never runs
out on the loop's own calls. -/
def safeAddLoop : Nat → DecCoins → DecCoins → DecCoins
  | _, [], coinsB => removeZeroDecCoins coinsB
  | _, a :: as, [] => removeZeroDecCoins (a :: as)
  | 0, _ :: _, _ :: _ => []
  | fuel + 1, a :: as, b :: bs =>
    if a.denom < b.denom then
      (if a.amount = 0 then safeAddLoop fuel as (b :: bs)
       else a :: safeAddLoop fuel as (b :: bs))
    else if b.denom < a.denom then
      (if b.amount = 0 then safeAddLoop fuel (a :: as) bs
       else b :: safeAddLoop fuel (a :: as) bs)
    else
      (if a.amount + b.amount = 0 then safeAddLoop fuel as bs
       else ⟨a.denom, a.amount + b.amount⟩ :: safeAddLoop fuel as bs)

/-- `DecCoins.safeAdd`: sorted merge of two coin sets, adding amounts on
equal denominations and dropping zero results. -/
def safeAdd (coins coinsB : DecCoins) : DecCoins :=
  safeAddLoop (coins.length + coinsB.length) coins coinsB

theorem safeAddLoop_nil_left (n : Nat) (b : DecCoins) :
    safeAddLoop n [] b = removeZeroDecCoins b := by
  cases n <;> rfl

theorem safeAddLoop_nil_right (n : Nat) (a : DecCoins) :
    safeAddLoop n a [] = removeZeroDecCoins a := by
  cases n <;> cases a <;> rfl

/-- `DecCoins.negative`: negate every amount. -/
def negCoins (coins : DecCoins) : DecCoins :=
  coins.map (fun c => ⟨c.denom, -c.amount⟩)

/-- `DecCoins.IsAnyNegative`: true when some entry has a negative amount. -/
def isAnyNegative (coins : DecCoins) : Bool :=
  coins.any (fun c => decide (c.amount < 0))

/-- `DecCoins.SafeSub`: difference together with the is-any-negative flag. -/
def safeSub (coins coinsB : DecCoins) : DecCoins × Bool :=
  let diff := safeAdd coins (negCoins coinsB)
  (diff, isAnyNegative diff)

/-- `DecCoins.Sub`: like `SafeSub` but a negative component is a panic,
embedded as `none`. -/
def subCoins (coins coinsB : DecCoins) : Option DecCoins :=
  let p := safeSub coins coinsB
  if p.2 then none else some p.1

/-- `DecCoins.MulDec`: scale every amount, dropping zero products. -/
def mulDec (coins : DecCoins) (d : ℚ) : DecCoins :=
  (coins.map (fun c => DecCoin.mk c.denom (c.amount * d))).filter
    (fun c => !decide (c.amount = 0))

/-- `DecCoins.AmountOf`: the amount held under a denomination, zero when the
denomination is absent. -/
def amountOf (coins : DecCoins) (denom : Denom) : ℚ :=
  match coins.find? (fun c => c.denom == denom) with
  | some c => c.amount
  | none => 0

theorem amountOf_nil (d : Denom) : amountOf [] d = 0 := rfl

theorem amountOf_cons (c : DecCoin) (cs : DecCoins) (d : Denom) :
    amountOf (c :: cs) d = if c.denom = d then c.amount else amountOf cs d := by
  by_cases h : c.denom = d
  · simp [amountOf, List.find?, h]
  · have hb : (c.denom == d) = false := beq_eq_false_iff_ne.mpr h
    simp [amountOf, List.find?, hb, h]

theorem removeZero_cons_zero {c : DecCoin} (cs : DecCoins) (hz : c.amount = 0) :
    removeZeroDecCoins (c :: cs) = removeZeroDecCoins cs := by
  simp [removeZeroDecCoins, List.filter_cons, hz]

theorem removeZero_cons_ne {c : DecCoin} (cs : DecCoins) (hz : ¬ c.amount = 0) :
    removeZeroDecCoins (c :: cs) = c :: removeZeroDecCoins cs := by
  simp [removeZeroDecCoins, List.filter_cons, hz]

theorem mulDec_nil (x : ℚ) : mulDec [] x = [] := rfl

theorem mulDec_cons (c : DecCoin) (cs : DecCoins) (x : ℚ) :
    mulDec (c :: cs) x =
      if c.amount * x = 0 then mulDec cs x
      else ⟨c.denom, c.amount * x⟩ :: mulDec cs x := by
  by_cases hz : c.amount * x = 0 <;> simp [mulDec, List.filter_cons, hz]

theorem amountOf_eq_zero_of_not_mem_denom (cs : DecCoins) (d : Denom)
    (h : ∀ c ∈ cs, c.denom ≠ d) : amountOf cs d = 0 := by
  induction cs with
  | nil => rfl
  | cons c cs ih =>
    rw [amountOf_cons]
    simp only [h c (by simp), if_false]
    exact ih fun x hx => h x (by simp [hx])

theorem sorted_tail {c : DecCoin} {cs : DecCoins} (h : SortedCoins (c :: cs)) :
    SortedCoins cs := (List.pairwise_cons.mp h).2

theorem sorted_head {c : DecCoin} {cs : DecCoins} (h : SortedCoins (c :: cs)) :
    ∀ x ∈ cs, c.denom < x.denom := (List.pairwise_cons.mp h).1

theorem amountOf_tail_head_denom {c : DecCoin} {cs : DecCoins}
    (h : SortedCoins (c :: cs)) : amountOf cs c.denom = 0 :=
  amountOf_eq_zero_of_not_mem_denom cs c.denom
    (fun x hx => ne_of_gt (sorted_head h x hx))

/-- On a sorted coin set, `amountOf` recovers the amount of each member. -/
theorem amountOf_of_mem {cs : DecCoins} (h : SortedCoins cs) {c : DecCoin}
    (hm : c ∈ cs) : amountOf cs c.denom = c.amount := by
  induction cs with
  | nil => cases hm
  | cons x xs ih =>
    rw [amountOf_cons]
    rcases List.mem_cons.mp hm with rfl | hm'
    · simp
    · have hne : x.denom ≠ c.denom := ne_of_lt (sorted_head h c hm')
      simp only [hne, if_false]
      exact ih (sorted_tail h) hm'

theorem amountOf_removeZero {cs : DecCoins} (h : SortedCoins cs) (d : Denom) :
    amountOf (removeZeroDecCoins cs) d = amountOf cs d := by
  induction cs with
  | nil => rfl
  | cons c cs ih =>
    by_cases hz : c.amount = 0
    · rw [removeZero_cons_zero cs hz, amountOf_cons, ih (sorted_tail h)]
      by_cases hd : c.denom = d
      · subst hd
        rw [amountOf_tail_head_denom h, hz, if_pos rfl]
      · rw [if_neg hd]
    · rw [removeZero_cons_ne cs hz, amountOf_cons, amountOf_cons,
        ih (sorted_tail h)]

theorem mem_removeZero {cs : DecCoins} {c : DecCoin}
    (h : c ∈ removeZeroDecCoins cs) : c ∈ cs :=
  List.mem_of_mem_filter h

theorem sorted_removeZero {cs : DecCoins} (h : SortedCoins cs) :
    SortedCoins (removeZeroDecCoins cs) := List.Pairwise.filter _ h

theorem amountOf_negCoins (cs : DecCoins) (d : Denom) :
    amountOf (negCoins cs) d = -amountOf cs d := by
  induction cs with
  | nil => simp [negCoins, amountOf_nil]
  | cons c cs ih =>
    simp only [negCoins, List.map] at ih ⊢
    rw [amountOf_cons, amountOf_cons]
    by_cases hd : c.denom = d <;> simp [hd, ih]

theorem sorted_negCoins {cs : DecCoins} (h : SortedCoins cs) :
    SortedCoins (negCoins cs) := by
  refine List.Pairwise.map _ ?_ h
  intro a b hab
  exact hab

theorem mem_negCoins {cs : DecCoins} {c : DecCoin} (h : c ∈ negCoins cs) :
    ∃ x ∈ cs, x.denom = c.denom := by
  rcases List.mem_map.mp h with ⟨x, hx, rfl⟩
  exact ⟨x, hx, rfl⟩

theorem amountOf_mulDec {cs : DecCoins} (h : SortedCoins cs) (x : ℚ)
    (d : Denom) : amountOf (mulDec cs x) d = amountOf cs d * x := by
  induction cs with
  | nil => simp [mulDec, amountOf_nil]
  | cons c cs ih =>
    rw [mulDec_cons]
    by_cases hz : c.amount * x = 0
    · rw [if_pos hz, ih (sorted_tail h), amountOf_cons]
      by_cases hd : c.denom = d
      · subst hd
        rw [amountOf_tail_head_denom h, if_pos rfl, hz, zero_mul]
      · rw [if_neg hd]
    · rw [if_neg hz, amountOf_cons, amountOf_cons]
      by_cases hd : c.denom = d
      · simp [hd]
      · simp only [hd, if_false]
        exact ih (sorted_tail h)

theorem mem_mulDec {cs : DecCoins} {x : ℚ} {c : DecCoin}
    (h : c ∈ mulDec cs x) : ∃ y ∈ cs, y.denom = c.denom := by
  rcases List.mem_map.mp (List.mem_of_mem_filter h) with ⟨y, hy, rfl⟩
  exact ⟨y, hy, rfl⟩

theorem sorted_mulDec {cs : DecCoins} (h : SortedCoins cs) (x : ℚ) :
    SortedCoins (mulDec cs x) := by
  refine List.Pairwise.filter _ (List.Pairwise.map _ ?_ h)
  intro a b hab
  exact hab

/-- No negative entry means every per-denomination amount is non-negative
(the converse direction needs no sortedness). -/
theorem amountOf_nonneg_of_not_isAnyNegative {cs : DecCoins}
    (h : isAnyNegative cs = false) (d : Denom) : 0 ≤ amountOf cs d := by
  induction cs with
  | nil => simp [amountOf_nil]
  | cons c cs ih =>
    simp only [isAnyNegative, List.any, Bool.or_eq_false_iff, decide_eq_false_iff_not,
      not_lt] at h
    rw [amountOf_cons]
    by_cases hd : c.denom = d
    · simpa [hd] using h.1
    · simp only [hd, if_false]
      exact ih (by simpa [isAnyNegative] using h.2)

/-- Every denomination in a merge comes from one of the operands. -/
theorem mem_denom_safeAddLoop (n : Nat) (a b : DecCoins) :
    ∀ c ∈ safeAddLoop n a b, (∃ x ∈ a, x.denom = c.denom) ∨
      ∃ x ∈ b, x.denom = c.denom := by
  induction n, a, b using safeAddLoop.induct with
  | case1 n coinsB =>
    intro c hc
    rw [safeAddLoop_nil_left] at hc
    exact Or.inr ⟨c, mem_removeZero hc, rfl⟩
  | case2 n a as =>
    intro c hc
    rw [safeAddLoop_nil_right] at hc
    exact Or.inl ⟨c, mem_removeZero hc, rfl⟩
  | case3 a as b bs =>
    intro c hc
    cases hc
  | case4 n a as b bs hlt hz ih =>
    intro c hc
    rw [show safeAddLoop (n + 1) (a :: as) (b :: bs) = safeAddLoop n as (b :: bs) by
      simp [safeAddLoop, hlt, hz]] at hc
    rcases ih c hc with ⟨x, hx, hd⟩ | hr
    · exact Or.inl ⟨x, List.mem_cons_of_mem _ hx, hd⟩
    · exact Or.inr hr
  | case5 n a as b bs hlt hz ih =>
    intro c hc
    rw [show safeAddLoop (n + 1) (a :: as) (b :: bs) =
        a :: safeAddLoop n as (b :: bs) by
      simp [safeAddLoop, hlt, hz]] at hc
    rcases List.mem_cons.mp hc with rfl | hc'
    · exact Or.inl ⟨c, List.mem_cons_self _ _, rfl⟩
    · rcases ih c hc' with ⟨x, hx, hd⟩ | hr
      · exact Or.inl ⟨x, List.mem_cons_of_mem _ hx, hd⟩
      · exact Or.inr hr
  | case6 n a as b bs hlt hgt hz ih =>
    intro c hc
    rw [show safeAddLoop (n + 1) (a :: as) (b :: bs) = safeAddLoop n (a :: as) bs by
      simp [safeAddLoop, hlt, hgt, hz]] at hc
    rcases ih c hc with hl | ⟨x, hx, hd⟩
    · exact Or.inl hl
    · exact Or.inr ⟨x, List.mem_cons_of_mem _ hx, hd⟩
  | case7 n a as b bs hlt hgt hz ih =>
    intro c hc
    rw [show safeAddLoop (n + 1) (a :: as) (b :: bs) =
        b :: safeAddLoop n (a :: as) bs by
      simp [safeAddLoop, hlt, hgt, hz]] at hc
    rcases List.mem_cons.mp hc with rfl | hc'
    · exact Or.inr ⟨c, List.mem_cons_self _ _, rfl⟩
    · rcases ih c hc' with hl | ⟨x, hx, hd⟩
      · exact Or.inl hl
      · exact Or.inr ⟨x, List.mem_cons_of_mem _ hx, hd⟩
  | case8 n a as b bs hlt hgt hz ih =>
    intro c hc
    rw [show safeAddLoop (n + 1) (a :: as) (b :: bs) = safeAddLoop n as bs by
      simp [safeAddLoop, hlt, hgt, hz]] at hc
    rcases ih c hc with ⟨x, hx, hd⟩ | ⟨x, hx, hd⟩
    · exact Or.inl ⟨x, List.mem_cons_of_mem _ hx, hd⟩
    · exact Or.inr ⟨x, List.mem_cons_of_mem _ hx, hd⟩
  | case9 n a as b bs hlt hgt hz ih =>
    intro c hc
    rw [show safeAddLoop (n + 1) (a :: as) (b :: bs) =
        ⟨a.denom, a.amount + b.amount⟩ :: safeAddLoop n as bs by
      simp [safeAddLoop, hlt, hgt, hz]] at hc
    rcases List.mem_cons.mp hc with rfl | hc'
    · exact Or.inl ⟨a, List.mem_cons_self _ _, rfl⟩
    · rcases ih c hc' with ⟨x, hx, hd⟩ | ⟨x, hx, hd⟩
      · exact Or.inl ⟨x, List.mem_cons_of_mem _ hx, hd⟩
      · exact Or.inr ⟨x, List.mem_cons_of_mem _ hx, hd⟩

theorem mem_denom_safeAdd (a b : DecCoins) :
    ∀ c ∈ safeAdd a b, (∃ x ∈ a, x.denom = c.denom) ∨
      ∃ x ∈ b, x.denom = c.denom :=
  mem_denom_safeAddLoop _ a b

/-- Merging sorted coin sets yields a sorted coin set. -/
theorem sorted_safeAddLoop : ∀ {n : Nat} {a b : DecCoins}, SortedCoins a →
    SortedCoins b → SortedCoins (safeAddLoop n a b) := by
  intro n a b
  induction n, a, b using safeAddLoop.induct with
  | case1 n coinsB =>
    intro _ hb
    rw [safeAddLoop_nil_left]
    exact sorted_removeZero hb
  | case2 n a as =>
    intro ha _
    rw [safeAddLoop_nil_right]
    exact sorted_removeZero ha
  | case3 a as b bs =>
    intro _ _
    exact List.Pairwise.nil
  | case4 n a as b bs hlt hz ih =>
    intro ha hb
    rw [show safeAddLoop (n + 1) (a :: as) (b :: bs) = safeAddLoop n as (b :: bs) by
      simp [safeAddLoop, hlt, hz]]
    exact ih (sorted_tail ha) hb
  | case5 n a as b bs hlt hz ih =>
    intro ha hb
    rw [show safeAddLoop (n + 1) (a :: as) (b :: bs) =
        a :: safeAddLoop n as (b :: bs) by
      simp [safeAddLoop, hlt, hz]]
    refine List.pairwise_cons.mpr ⟨?_, ih (sorted_tail ha) hb⟩
    intro c hc
    rcases mem_denom_safeAddLoop _ _ _ c hc with ⟨x, hx, hd⟩ | ⟨x, hx, hd⟩
    · exact hd ▸ sorted_head ha x hx
    · rcases List.mem_cons.mp hx with rfl | hx'
      · exact hd ▸ hlt
      · exact hd ▸ lt_trans hlt (sorted_head hb x hx')
  | case6 n a as b bs hlt hgt hz ih =>
    intro ha hb
    rw [show safeAddLoop (n + 1) (a :: as) (b :: bs) = safeAddLoop n (a :: as) bs by
      simp [safeAddLoop, hlt, hgt, hz]]
    exact ih ha (sorted_tail hb)
  | case7 n a as b bs hlt hgt hz ih =>
    intro ha hb
    rw [show safeAddLoop (n + 1) (a :: as) (b :: bs) =
        b :: safeAddLoop n (a :: as) bs by
      simp [safeAddLoop, hlt, hgt, hz]]
    refine List.pairwise_cons.mpr ⟨?_, ih ha (sorted_tail hb)⟩
    intro c hc
    rcases mem_denom_safeAddLoop _ _ _ c hc with ⟨x, hx, hd⟩ | ⟨x, hx, hd⟩
    · rcases List.mem_cons.mp hx with rfl | hx'
      · exact hd ▸ hgt
      · exact hd ▸ lt_trans hgt (sorted_head ha x hx')
    · exact hd ▸ sorted_head hb x hx
  | case8 n a as b bs hlt hgt hz ih =>
    intro ha hb
    rw [show safeAddLoop (n + 1) (a :: as) (b :: bs) = safeAddLoop n as bs by
      simp [safeAddLoop, hlt, hgt, hz]]
    exact ih (sorted_tail ha) (sorted_tail hb)
  | case9 n a as b bs hlt hgt hz ih =>
    intro ha hb
    have heq : a.denom = b.denom := le_antisymm (not_lt.mp hgt) (not_lt.mp hlt)
    rw [show safeAddLoop (n + 1) (a :: as) (b :: bs) =
        ⟨a.denom, a.amount + b.amount⟩ :: safeAddLoop n as bs by
      simp [safeAddLoop, hlt, hgt, hz]]
    refine List.pairwise_cons.mpr ⟨?_, ih (sorted_tail ha) (sorted_tail hb)⟩
    intro c hc
    rcases mem_denom_safeAddLoop _ _ _ c hc with ⟨x, hx, hd⟩ | ⟨x, hx, hd⟩
    · exact hd ▸ sorted_head ha x hx
    · exact hd ▸ heq ▸ sorted_head hb x hx

theorem sorted_safeAdd {a b : DecCoins} (ha : SortedCoins a)
    (hb : SortedCoins b) : SortedCoins (safeAdd a b) :=
  sorted_safeAddLoop ha hb

/-- The merge is per-denomination addition over the union of denominations,
with missing denominations treated as zero. -/
theorem amountOf_safeAddLoop : ∀ {n : Nat} {a b : DecCoins},
    a.length + b.length ≤ n → SortedCoins a → SortedCoins b →
    ∀ d, amountOf (safeAddLoop n a b) d = amountOf a d + amountOf b d := by
  intro n a b
  induction n, a, b using safeAddLoop.induct with
  | case1 n coinsB =>
    intro _ _ hb d
    rw [safeAddLoop_nil_left, amountOf_removeZero hb, amountOf_nil, zero_add]
  | case2 n a as =>
    intro _ ha _ d
    rw [safeAddLoop_nil_right, amountOf_removeZero ha, amountOf_nil, add_zero]
  | case3 a as b bs =>
    intro hlen _ _ d
    simp at hlen
  | case4 n a as b bs hlt hz ih =>
    intro hlen ha hb d
    rw [show safeAddLoop (n + 1) (a :: as) (b :: bs) = safeAddLoop n as (b :: bs) by
      simp [safeAddLoop, hlt, hz]]
    rw [ih (by simp at hlen ⊢; omega) (sorted_tail ha) hb d, amountOf_cons a as d]
    by_cases hd : a.denom = d
    · subst hd
      rw [if_pos rfl, amountOf_tail_head_denom ha, hz]
    · rw [if_neg hd]
  | case5 n a as b bs hlt hz ih =>
    intro hlen ha hb d
    rw [show safeAddLoop (n + 1) (a :: as) (b :: bs) =
        a :: safeAddLoop n as (b :: bs) by
      simp [safeAddLoop, hlt, hz]]
    rw [amountOf_cons a (safeAddLoop n as (b :: bs)) d, amountOf_cons a as d]
    by_cases hd : a.denom = d
    · subst hd
      rw [if_pos rfl, if_pos rfl,
        amountOf_eq_zero_of_not_mem_denom (b :: bs) a.denom ?hmem]
      · ring
      case hmem =>
        intro x hx
        rcases List.mem_cons.mp hx with rfl | hx'
        · exact ne_of_gt hlt
        · exact ne_of_gt (lt_trans hlt (sorted_head hb x hx'))
    · rw [if_neg hd, if_neg hd,
        ih (by simp at hlen ⊢; omega) (sorted_tail ha) hb d]
  | case6 n a as b bs hlt hgt hz ih =>
    intro hlen ha hb d
    rw [show safeAddLoop (n + 1) (a :: as) (b :: bs) = safeAddLoop n (a :: as) bs by
      simp [safeAddLoop, hlt, hgt, hz]]
    rw [ih (by simp at hlen ⊢; omega) ha (sorted_tail hb) d, amountOf_cons b bs d]
    by_cases hd : b.denom = d
    · subst hd
      rw [if_pos rfl, amountOf_tail_head_denom hb, hz]
    · rw [if_neg hd]
  | case7 n a as b bs hlt hgt hz ih =>
    intro hlen ha hb d
    rw [show safeAddLoop (n + 1) (a :: as) (b :: bs) =
        b :: safeAddLoop n (a :: as) bs by
      simp [safeAddLoop, hlt, hgt, hz]]
    rw [amountOf_cons b (safeAddLoop n (a :: as) bs) d, amountOf_cons b bs d]
    by_cases hd : b.denom = d
    · subst hd
      rw [if_pos rfl, if_pos rfl,
        amountOf_eq_zero_of_not_mem_denom (a :: as) b.denom ?hmem]
      · ring
      case hmem =>
        intro x hx
        rcases List.mem_cons.mp hx with rfl | hx'
        · exact ne_of_gt hgt
        · exact ne_of_gt (lt_trans hgt (sorted_head ha x hx'))
    · rw [if_neg hd, if_neg hd,
        ih (by simp at hlen ⊢; omega) ha (sorted_tail hb) d]
  | case8 n a as b bs hlt hgt hz ih =>
    intro hlen ha hb d
    have heq : a.denom = b.denom := le_antisymm (not_lt.mp hgt) (not_lt.mp hlt)
    rw [show safeAddLoop (n + 1) (a :: as) (b :: bs) = safeAddLoop n as bs by
      simp [safeAddLoop, hlt, hgt, hz]]
    rw [ih (by simp at hlen ⊢; omega) (sorted_tail ha) (sorted_tail hb) d,
      amountOf_cons a as d, amountOf_cons b bs d]
    by_cases hd : a.denom = d
    · subst hd
      rw [if_pos rfl, if_pos heq.symm, amountOf_tail_head_denom ha, heq,
        amountOf_tail_head_denom hb]
      linarith [hz]
    · rw [if_neg hd, if_neg (fun h => hd (heq.trans h))]
  | case9 n a as b bs hlt hgt hz ih =>
    intro hlen ha hb d
    have heq : a.denom = b.denom := le_antisymm (not_lt.mp hgt) (not_lt.mp hlt)
    rw [show safeAddLoop (n + 1) (a :: as) (b :: bs) =
        ⟨a.denom, a.amount + b.amount⟩ :: safeAddLoop n as bs by
      simp [safeAddLoop, hlt, hgt, hz]]
    rw [amountOf_cons ⟨a.denom, a.amount + b.amount⟩ (safeAddLoop n as bs) d,
      amountOf_cons a as d, amountOf_cons b bs d,
      ih (by simp at hlen ⊢; omega) (sorted_tail ha) (sorted_tail hb) d]
    by_cases hd : a.denom = d
    · subst hd
      rw [if_pos rfl, if_pos rfl, if_pos heq.symm]
    · rw [if_neg hd, if_neg hd, if_neg (fun h => hd (heq.trans h))]

theorem amountOf_safeAdd {a b : DecCoins} (ha : SortedCoins a)
    (hb : SortedCoins b) (d : Denom) :
    amountOf (safeAdd a b) d = amountOf a d + amountOf b d :=
  amountOf_safeAddLoop (le_refl _) ha hb d

theorem isAnyNegative_iff {cs : DecCoins} (h : SortedCoins cs) :
    isAnyNegative cs = true ↔ ∃ d, amountOf cs d < 0 := by
  constructor
  · intro hneg
    simp only [isAnyNegative, List.any_eq_true, decide_eq_true_eq] at hneg
    rcases hneg with ⟨c, hc, hlt⟩
    exact ⟨c.denom, by rw [amountOf_of_mem h hc]; exact hlt⟩
  · intro ⟨d, hd⟩
    by_contra hne
    have : isAnyNegative cs = false := by
      cases hb : isAnyNegative cs
      · rfl
      · exact absurd hb hne
    exact absurd hd (not_lt.mpr (amountOf_nonneg_of_not_isAnyNegative this d))

/-! ## Data model -/

/-- Modelled from the spec: the opaque, caller-defined per-position options
bundle ("an opaque, caller-defined configuration bundle controlling
reward-settlement variants"); its concrete fields live outside the sources,
so it is embedded as an abstract serializable payload passed through
unmodified. -/
structure Options where
  payload : String
deriving DecidableEq, Repr

/-- The stored position record (`Record` of the accum package): shares, the
accumulator-value snapshot, settled-but-unclaimed rewards, and the options
pointer (`nil` embedded as `none`). -/
structure Record where
  numShares : ℚ
  initAccumValue : DecCoins
  unclaimedRewards : DecCoins
  options : Option Options
deriving DecidableEq, Repr

/-- Modelled from the spec: positions are persisted under a key formed from
the accumulator name and the position index (`formatPositionPrefixKey` of
the accum package, whose file is not among the sources); the two components
are kept as a pair. -/
def formatPositionPrefixKey (name index : String) : String × String :=
  (name, index)

/-- Modelled from the spec: the accumulator object (`AccumulatorObject` of
the accum package, whose file is not among the sources) — its store handle,
unique name, current cumulative value and total share count. -/
structure AccumulatorObject where
  store : String × String → Option Record
  name : String
  value : DecCoins
  totalShares : ℚ

/-- Modelled from the spec: the error taxonomy of the accumulator package
used by the helper functions. -/
inductive AccumError where
  | NegativeCustomAccError (customValue : DecCoins)
  | NegativeAccDifferenceError (negativeDifferenceAmount : DecCoins)
  | NoPositionError (positionName : String)
deriving DecidableEq, Repr

/-- `minusOne = sdk.NewDec(-1)` from `accum_helpers.go`. -/
def minusOne : ℚ := -1

/-! ## The helper functions of `accum_helpers.go` -/

/-- `initOrUpdatePosition`: unconditionally writes a position record, built
from the supplied accumulator-value snapshot, shares, unclaimed rewards and
options, under the accumulator's name and the given index.  The store write
(`osmoutils.MustSet`) is embedded as a functional update of the store. -/
def initOrUpdatePosition (accum : AccumulatorObject)
    (accumulatorValue : DecCoins) (index : String) (numShareUnits : ℚ)
    (unclaimedRewards : DecCoins) (options : Option Options) :
    AccumulatorObject :=
  let position : Record :=
    { numShares := numShareUnits
      initAccumValue := accumulatorValue
      unclaimedRewards := unclaimedRewards
      options := options }
  { accum with
    store := fun k =>
      if k = formatPositionPrefixKey accum.name index then some position
      else accum.store k }

/-- `getPosition`: reads the record stored under the accumulator's name and
the given index; absent records yield `NoPositionError`. -/
def getPosition (accum : AccumulatorObject) (name : String) :
    Except AccumError Record :=
  match accum.store (formatPositionPrefixKey accum.name name) with
  | some position => .ok position
  | none => .error (.NoPositionError name)

/-- `getTotalRewards`: existing unclaimed rewards plus the newly accrued
rewards `(accum.value − (position.initAccumValue + feeGrowthOutside)) ×
position.numShares`.  The `Sub` panic on a negative component is embedded
as `none`. -/
def getTotalRewards (accum : AccumulatorObject) (position : Record)
    (feeGrowthOutside : DecCoins) : Option DecCoins :=
  let totalRewards := position.unclaimedRewards
  match subCoins accum.value
      (safeAdd position.initAccumValue feeGrowthOutside) with
  | none => none
  | some accumGrowth =>
    let accumulatorRewards := mulDec accumGrowth position.numShares
    some (safeAdd totalRewards accumulatorRewards)

/-- `validateAccumulatorValue`: rejects a custom accumulator value that has
any negative component, then one whose difference with the old value is
negative in any component; success is `none`. -/
def validateAccumulatorValue (customAccumulatorValue
    oldPositionAccumulatorValue : DecCoins) : Option AccumError :=
  if isAnyNegative customAccumulatorValue then
    some (.NegativeCustomAccError customAccumulatorValue)
  else
    let p := safeSub customAccumulatorValue oldPositionAccumulatorValue
    if p.2 then some (.NegativeAccDifferenceError (mulDec p.1 minusOne))
    else none

/-! ## Characterization of the subtraction and the reward computation -/

theorem safeSub_snd_iff {a b : DecCoins} (ha : SortedCoins a)
    (hb : SortedCoins b) :
    (safeSub a b).2 = true ↔ ∃ d, amountOf a d < amountOf b d := by
  have hd : SortedCoins (safeAdd a (negCoins b)) :=
    sorted_safeAdd ha (sorted_negCoins hb)
  rw [show (safeSub a b).2 = isAnyNegative (safeAdd a (negCoins b)) from rfl,
    isAnyNegative_iff hd]
  constructor
  · intro ⟨d, h⟩
    refine ⟨d, ?_⟩
    rw [amountOf_safeAdd ha (sorted_negCoins hb) d, amountOf_negCoins] at h
    linarith
  · intro ⟨d, h⟩
    refine ⟨d, ?_⟩
    rw [amountOf_safeAdd ha (sorted_negCoins hb) d, amountOf_negCoins]
    linarith

theorem subCoins_eq_none_iff {a b : DecCoins} (ha : SortedCoins a)
    (hb : SortedCoins b) :
    subCoins a b = none ↔ ∃ d, amountOf a d < amountOf b d := by
  rw [← safeSub_snd_iff ha hb]
  unfold subCoins
  cases h : (safeSub a b).2 <;> simp [h]

theorem subCoins_eq_some {a b r : DecCoins} (ha : SortedCoins a)
    (hb : SortedCoins b) (h : subCoins a b = some r) :
    SortedCoins r ∧ ∀ d, amountOf r d = amountOf a d - amountOf b d := by
  unfold subCoins at h
  by_cases hneg : (safeSub a b).2 = true
  · rw [if_pos hneg] at h
    cases h
  · rw [if_neg hneg] at h
    have hr : r = safeAdd a (negCoins b) := by
      cases h
      rfl
    subst hr
    refine ⟨sorted_safeAdd ha (sorted_negCoins hb), fun d => ?_⟩
    rw [amountOf_safeAdd ha (sorted_negCoins hb) d, amountOf_negCoins]
    ring

/-- Shared characterization: whenever `getTotalRewards` completes, the
returned coin set is sorted and per-denomination equal to
`unclaimed + numShares × (value − (init + growthOutside))`. -/
theorem getTotalRewards_some_spec {accum : AccumulatorObject}
    {position : Record} {g r : DecCoins} (hv : SortedCoins accum.value)
    (hi : SortedCoins position.initAccumValue)
    (hu : SortedCoins position.unclaimedRewards) (hg : SortedCoins g)
    (h : getTotalRewards accum position g = some r) :
    SortedCoins r ∧ ∀ d, amountOf r d =
      amountOf position.unclaimedRewards d + position.numShares *
        (amountOf accum.value d -
          (amountOf position.initAccumValue d + amountOf g d)) := by
  unfold getTotalRewards at h
  cases hsub : subCoins accum.value (safeAdd position.initAccumValue g) with
  | none =>
    rw [hsub] at h
    cases h
  | some diff =>
    rw [hsub] at h
    have hig : SortedCoins (safeAdd position.initAccumValue g) :=
      sorted_safeAdd hi hg
    have hdiff := subCoins_eq_some hv hig hsub
    have hr : r = safeAdd position.unclaimedRewards
        (mulDec diff position.numShares) := by
      cases h
      rfl
    subst hr
    refine ⟨sorted_safeAdd hu (sorted_mulDec hdiff.1 _), fun d => ?_⟩
    rw [amountOf_safeAdd hu (sorted_mulDec hdiff.1 _) d,
      amountOf_mulDec hdiff.1 position.numShares d, hdiff.2 d,
      amountOf_safeAdd hi hg d]
    ring

/-- Shared characterization: `getTotalRewards` aborts exactly when the
subtraction goes negative in some denomination. -/
theorem getTotalRewards_none_iff {accum : AccumulatorObject}
    {position : Record} {g : DecCoins} (hv : SortedCoins accum.value)
    (hi : SortedCoins position.initAccumValue) (hg : SortedCoins g) :
    getTotalRewards accum position g = none ↔
      ∃ d, amountOf accum.value d <
        amountOf position.initAccumValue d + amountOf g d := by
  have hig : SortedCoins (safeAdd position.initAccumValue g) :=
    sorted_safeAdd hi hg
  unfold getTotalRewards
  cases hsub : subCoins accum.value (safeAdd position.initAccumValue g) with
  | none =>
    rw [subCoins_eq_none_iff hv hig] at hsub
    simp only [true_iff]
    rcases hsub with ⟨d, hd⟩
    rw [amountOf_safeAdd hi hg d] at hd
    exact ⟨d, hd⟩
  | some diff =>
    simp only [reduceCtorEq, false_iff, not_exists, not_lt]
    intro d
    have : ¬ subCoins accum.value (safeAdd position.initAccumValue g) = none := by
      rw [hsub]
      simp
    rw [subCoins_eq_none_iff hv hig] at this
    push_neg at this
    have hd := this d
    rw [amountOf_safeAdd hi hg d] at hd
    exact hd

/-! ## Claim theorems about the helper functions -/

/-- C1: for every accumulator value, position record and growth-outside
adjustment, whenever `getTotalRewards` returns, the result equals
`position.unclaimedRewards + position.numShares × (accumulator.currentValue −
(position.initAccumValue + growthOutside))`, with the subtraction and the
scalar multiplication performed per denomination over the union of
denominations present in either operand and a missing denomination treated
as zero. -/
theorem getTotalRewards_returns_formula {accum : AccumulatorObject}
    {position : Record} {g r : DecCoins} (hv : SortedCoins accum.value)
    (hi : SortedCoins position.initAccumValue)
    (hu : SortedCoins position.unclaimedRewards) (hg : SortedCoins g)
    (h : getTotalRewards accum position g = some r) :
    ∀ d, amountOf r d =
      amountOf position.unclaimedRewards d + position.numShares *
        (amountOf accum.value d -
          (amountOf position.initAccumValue d + amountOf g d)) :=
  fun d => (getTotalRewards_some_spec hv hi hu hg h).2 d

theorem getTotalRewards_returns_formula_witness :
    amountOf [⟨"u", 7⟩] "u" =
      amountOf [⟨"u", 5⟩] "u" + 2 *
        (amountOf [⟨"u", 3⟩] "u" -
          (amountOf [⟨"u", 1⟩] "u" + amountOf [⟨"u", 1⟩] "u")) :=
  @getTotalRewards_returns_formula ⟨fun _ => none, "x", [⟨"u", 3⟩], 0⟩
    ⟨2, [⟨"u", 1⟩], [⟨"u", 5⟩], none⟩ [⟨"u", 1⟩] [⟨"u", 7⟩]
    (by simp [SortedCoins]) (by simp [SortedCoins]) (by simp [SortedCoins])
    (by simp [SortedCoins])
    (by norm_num [getTotalRewards, subCoins, safeSub, safeAdd, safeAddLoop,
      negCoins, isAnyNegative, removeZeroDecCoins, mulDec]) "u"

/-- C9: under the documented precondition that the accumulator's current
value dominates `position.initAccumValue + growthOutside` component-wise
(and shares are non-negative), `getTotalRewards` executes without any
runtime failure — the abort branch of the embedded subtraction is
unreachable.  The helper performs no defensive re-validation: its only
possible failure is that subtraction. -/
theorem getTotalRewards_no_runtime_failure {accum : AccumulatorObject}
    {position : Record} {g : DecCoins} (hv : SortedCoins accum.value)
    (hi : SortedCoins position.initAccumValue) (hg : SortedCoins g)
    (hshares : 0 ≤ position.numShares)
    (hpre : ∀ d, amountOf position.initAccumValue d + amountOf g d ≤
      amountOf accum.value d) :
    (getTotalRewards accum position g).isSome = true := by
  cases h : getTotalRewards accum position g with
  | some r => rfl
  | none =>
    rw [getTotalRewards_none_iff hv hi hg] at h
    obtain ⟨d, hd⟩ := h
    linarith [hpre d]

theorem getTotalRewards_no_runtime_failure_witness :
    (getTotalRewards ⟨fun _ => none, "x", [⟨"u", 3⟩], 0⟩
      ⟨2, [⟨"u", 1⟩], [⟨"u", 5⟩], none⟩ [⟨"u", 1⟩]).isSome = true :=
  @getTotalRewards_no_runtime_failure ⟨fun _ => none, "x", [⟨"u", 3⟩], 0⟩
    ⟨2, [⟨"u", 1⟩], [⟨"u", 5⟩], none⟩ [⟨"u", 1⟩]
    (by simp [SortedCoins]) (by simp [SortedCoins]) (by simp [SortedCoins])
    (by norm_num)
    (by
      intro d
      simp only [amountOf_cons, amountOf_nil]
      by_cases h : "u" = d <;> simp [h] <;> norm_num)

/-- C10 (implicit): when the precondition is violated — some denomination of
`position.initAccumValue + growthOutside` strictly exceeds the accumulator's
current value — `getTotalRewards` returns neither a negative nor a clamped
reward nor an error value: the embedded per-denomination subtraction aborts
(Go panic, embedded as `none`), and it aborts exactly in that case. -/
theorem getTotalRewards_abort_iff {accum : AccumulatorObject}
    {position : Record} {g : DecCoins} (hv : SortedCoins accum.value)
    (hi : SortedCoins position.initAccumValue) (hg : SortedCoins g) :
    getTotalRewards accum position g = none ↔
      ∃ d, amountOf accum.value d <
        amountOf position.initAccumValue d + amountOf g d :=
  getTotalRewards_none_iff hv hi hg

theorem getTotalRewards_abort_iff_witness :
    getTotalRewards ⟨fun _ => none, "x", [], 0⟩
      ⟨1, [⟨"u", 1⟩], [], none⟩ [] = none :=
  (@getTotalRewards_abort_iff ⟨fun _ => none, "x", [], 0⟩
    ⟨1, [⟨"u", 1⟩], [], none⟩ []
    (by simp [SortedCoins]) (by simp [SortedCoins]) (by simp [SortedCoins])).mpr
    ⟨"u", by rw [amountOf_cons]; norm_num [amountOf_nil]⟩

/-- C3: `validateAccumulatorValue(custom, old)` succeeds (returns no error)
iff `custom` is component-wise non-negative and component-wise dominates
`old`, missing denominations in either operand treated as zero. -/
theorem validateAccumulatorValue_ok_iff {custom old : DecCoins}
    (hc : SortedCoins custom) (ho : SortedCoins old) :
    validateAccumulatorValue custom old = none ↔
      (∀ d, 0 ≤ amountOf custom d) ∧
        ∀ d, amountOf old d ≤ amountOf custom d := by
  unfold validateAccumulatorValue
  by_cases hneg : isAnyNegative custom = true
  · rw [if_pos hneg]
    simp only [reduceCtorEq, false_iff]
    intro hcontra
    rw [isAnyNegative_iff hc] at hneg
    obtain ⟨d, hd⟩ := hneg
    linarith [hcontra.1 d]
  · rw [if_neg hneg]
    by_cases hsub : (safeSub custom old).2 = true
    · rw [if_pos hsub]
      simp only [reduceCtorEq, false_iff]
      intro hcontra
      rw [safeSub_snd_iff hc ho] at hsub
      obtain ⟨d, hd⟩ := hsub
      linarith [hcontra.2 d]
    · rw [if_neg hsub]
      simp only [true_iff]
      constructor
      · exact amountOf_nonneg_of_not_isAnyNegative
          (Bool.not_eq_true _ ▸ hneg)
      · intro d
        rw [safeSub_snd_iff hc ho] at hsub
        push_neg at hsub
        exact hsub d

theorem validateAccumulatorValue_ok_iff_witness :
    (∀ d, 0 ≤ amountOf [⟨"u", 2⟩] d) ∧
      ∀ d, amountOf [⟨"u", 1⟩] d ≤ amountOf [⟨"u", 2⟩] d :=
  (@validateAccumulatorValue_ok_iff [⟨"u", 2⟩] [⟨"u", 1⟩]
    (by simp [SortedCoins]) (by simp [SortedCoins])).mp
    (by norm_num [validateAccumulatorValue, safeSub, safeAdd, safeAddLoop,
      negCoins, isAnyNegative, removeZeroDecCoins])

/-- C4: `validateAccumulatorValue` applies its rules in order — a negative
denomination in `customValue` yields `NegativeCustomAccError{customValue}`
first (whatever the difference against `oldValue` would be); otherwise a
negative component in `customValue − oldValue` (missing entries as zero)
yields `NegativeAccDifferenceError` carrying the negated difference, whose
amount in every denomination is `oldValue − customValue`. -/
theorem validateAccumulatorValue_checks_in_order {custom old : DecCoins}
    (hc : SortedCoins custom) (ho : SortedCoins old) :
    (isAnyNegative custom = true →
      validateAccumulatorValue custom old =
        some (.NegativeCustomAccError custom)) ∧
    (isAnyNegative custom = false →
      (∃ d, amountOf custom d < amountOf old d) →
      ∃ deficit, validateAccumulatorValue custom old =
          some (.NegativeAccDifferenceError deficit) ∧
        ∀ d, amountOf deficit d = amountOf old d - amountOf custom d) := by
  constructor
  · intro h
    unfold validateAccumulatorValue
    rw [if_pos h]
  · intro hfalse hex
    unfold validateAccumulatorValue
    rw [if_neg (by simp [hfalse])]
    have hsub : (safeSub custom old).2 = true := (safeSub_snd_iff hc ho).mpr hex
    rw [if_pos hsub]
    have h1 : SortedCoins (safeSub custom old).1 :=
      sorted_safeAdd hc (sorted_negCoins ho)
    refine ⟨_, rfl, fun d => ?_⟩
    rw [amountOf_mulDec h1 minusOne d,
      show (safeSub custom old).1 = safeAdd custom (negCoins old) from rfl,
      amountOf_safeAdd hc (sorted_negCoins ho) d, amountOf_negCoins,
      minusOne]
    ring

theorem validateAccumulatorValue_checks_in_order_witness :
    validateAccumulatorValue [⟨"u", -1⟩] [] =
      some (.NegativeCustomAccError [⟨"u", -1⟩]) :=
  (@validateAccumulatorValue_checks_in_order [⟨"u", -1⟩] []
    (by simp [SortedCoins]) (by simp [SortedCoins])).1
    (by norm_num [isAnyNegative])

/-- C6: `getPosition` returns the record stored under the accumulator's name
and the given index when one exists, and fails with `NoPositionError`
carrying the index when none does.  It is read-only by construction: the
embedding gives it no way to produce a new store or accumulator. -/
theorem getPosition_found_or_error (accum : AccumulatorObject)
    (index : String) :
    (∀ p, accum.store (formatPositionPrefixKey accum.name index) = some p →
      getPosition accum index = .ok p) ∧
    (accum.store (formatPositionPrefixKey accum.name index) = none →
      getPosition accum index = .error (.NoPositionError index)) := by
  constructor
  · intro p h
    unfold getPosition
    rw [h]
  · intro h
    unfold getPosition
    rw [h]

theorem getPosition_found_or_error_witness :
    getPosition
      ⟨fun k => if k = ("a", "x") then some ⟨1, [], [], none⟩ else none,
        "a", [], 0⟩ "x" = .ok ⟨1, [], [], none⟩ :=
  (getPosition_found_or_error
    ⟨fun k => if k = ("a", "x") then some ⟨1, [], [], none⟩ else none,
      "a", [], 0⟩ "x").1 ⟨1, [], [], none⟩
    (by simp [formatPositionPrefixKey])

/-- C7 counterexample: `initOrUpdatePosition` stores the accumulator-value
snapshot it is HANDED as an argument, not the accumulator's current value
at call time.  Called on an accumulator whose current value is
`{u: 1}` with the snapshot argument `{}`, it writes a record whose
`initAccumValue` is `{}`, different from the accumulator's current value. -/
theorem initOrUpdatePosition_initAccumValue_cex :
    ((initOrUpdatePosition ⟨fun _ => none, "a", [⟨"u", 1⟩], 0⟩ [] "i" 1 []
        none).store ("a", "i")).map Record.initAccumValue = some [] ∧
      (⟨fun _ => none, "a", [⟨"u", 1⟩], 0⟩ : AccumulatorObject).value ≠ [] := by
  constructor
  · simp [initOrUpdatePosition, formatPositionPrefixKey]
  · simp

/-- C7 (amended): `initOrUpdatePosition` unconditionally (never failing,
whether or not a record already exists under the index) writes a position
record whose `initAccumValue` equals the accumulator-value snapshot supplied
by the caller — the lifecycle callers pass the accumulator's current value —
and whose `numShares`, `unclaimedRewards` and `options` equal the supplied
arguments unmodified. -/
theorem initOrUpdatePosition_writes_supplied_record
    (accum : AccumulatorObject) (accumulatorValue : DecCoins) (index : String)
    (numShareUnits : ℚ) (unclaimedRewards : DecCoins)
    (options : Option Options) :
    (initOrUpdatePosition accum accumulatorValue index numShareUnits
        unclaimedRewards options).store
        (formatPositionPrefixKey accum.name index) =
      some ⟨numShareUnits, accumulatorValue, unclaimedRewards, options⟩ := by
  simp [initOrUpdatePosition]

/-- C8: `initOrUpdatePosition` has no side effect beyond the single
position-record write — the accumulator's current value, total shares and
name are unchanged, and the record under every other key is unchanged. -/
theorem initOrUpdatePosition_frame (accum : AccumulatorObject)
    (accumulatorValue : DecCoins) (index : String) (numShareUnits : ℚ)
    (unclaimedRewards : DecCoins) (options : Option Options) :
    ((initOrUpdatePosition accum accumulatorValue index numShareUnits
        unclaimedRewards options).value = accum.value ∧
      (initOrUpdatePosition accum accumulatorValue index numShareUnits
        unclaimedRewards options).totalShares = accum.totalShares ∧
      (initOrUpdatePosition accum accumulatorValue index numShareUnits
        unclaimedRewards options).name = accum.name) ∧
    ∀ k, k ≠ formatPositionPrefixKey accum.name index →
      (initOrUpdatePosition accum accumulatorValue index numShareUnits
        unclaimedRewards options).store k = accum.store k := by
  refine ⟨⟨rfl, rfl, rfl⟩, fun k hk => ?_⟩
  simp [initOrUpdatePosition, hk]

theorem initOrUpdatePosition_frame_witness :
    (initOrUpdatePosition ⟨fun _ => none, "a", [⟨"u", 1⟩], 0⟩ [] "i" 1 []
        none).store ("a", "j") =
      (⟨fun _ => none, "a", [⟨"u", 1⟩], 0⟩ : AccumulatorObject).store
        ("a", "j") :=
  (initOrUpdatePosition_frame ⟨fun _ => none, "a", [⟨"u", 1⟩], 0⟩ [] "i" 1 []
      none).2 ("a", "j") (by simp [formatPositionPrefixKey])

/-! ## The claim operation (spec-modelled) -/

theorem sorted_nil : SortedCoins [] := List.Pairwise.nil

/-- Modelled from the spec: `ClaimRewards` (the lifecycle manager's claim
operation, whose file is not among the sources) — "settle via
`computeTotalRewards`, return the full `unclaimedRewards` to the caller for
payout, then `initOrUpdatePosition` with the same `numShares` and
`unclaimedRewards` reset to zero", where `initOrUpdatePosition` re-bases
`initAccumValue` to the accumulator's current value.  A missing position or
an aborting reward computation yields `none`. -/
def ClaimRewards (accum : AccumulatorObject) (index : String)
    (growthOutside : DecCoins) : Option (DecCoins × AccumulatorObject) :=
  match getPosition accum index with
  | .error _ => none
  | .ok position =>
    match getTotalRewards accum position growthOutside with
    | none => none
    | some totalRewards =>
      some (totalRewards,
        initOrUpdatePosition accum accum.value index position.numShares []
          position.options)

/-- C5 counterexample: with a nonzero growth-outside adjustment the claim
fails — on a position with 1 share, zero snapshot, accumulator value
`{u: 4}` and growth-outside `{u: 1}`, the first `ClaimRewards` pays
`{u: 3}`, but the immediately repeated `ClaimRewards` with the same
growth-outside does not yield exactly zero: its re-computation aborts,
because the re-based snapshot plus the growth-outside exceeds the unchanged
accumulator value. -/
theorem claimRewards_twice_nonzero_growth_cex :
    (ClaimRewards ⟨fun k => if k = ("a", "p") then some ⟨1, [], [], none⟩
        else none, "a", [⟨"u", 4⟩], 1⟩ "p" [⟨"u", 1⟩]).map Prod.fst =
      some [⟨"u", 3⟩] ∧
    ((ClaimRewards ⟨fun k => if k = ("a", "p") then some ⟨1, [], [], none⟩
        else none, "a", [⟨"u", 4⟩], 1⟩ "p" [⟨"u", 1⟩]).bind fun pr =>
      ClaimRewards pr.2 "p" [⟨"u", 1⟩]) = none := by
  constructor <;>
    norm_num [ClaimRewards, getPosition, getTotalRewards, initOrUpdatePosition,
      formatPositionPrefixKey, subCoins, safeSub, safeAdd, safeAddLoop,
      negCoins, isAnyNegative, removeZeroDecCoins, mulDec]

/-- C5 (amended): after a settlement re-bases a position via
`initOrUpdatePosition` with `unclaimedRewards` reset to zero and
`initAccumValue` set to the accumulator's current value, an immediately
subsequent `ClaimRewards` with the unchanged accumulator value and zero
growth-outside succeeds and pays exactly zero in every denomination (and so
`ClaimRewards` twice in immediate succession with zero growth-outside pays
everything the first time and exactly zero the second); with a nonzero
growth-outside the second computation's subtraction goes negative and
aborts instead. -/
theorem claimRewards_after_rebase_zero (accum : AccumulatorObject)
    (p : Record) (index : String) (hv : SortedCoins accum.value)
    (hp : accum.store (formatPositionPrefixKey accum.name index) = some p) :
    ∃ pay2 a2,
      ClaimRewards (initOrUpdatePosition accum accum.value index p.numShares
        [] p.options) index [] = some (pay2, a2) ∧
      ∀ d, amountOf pay2 d = 0 := by
  have hS : SortedCoins (safeAdd accum.value []) := sorted_safeAdd hv sorted_nil
  have hSd : ∀ d, amountOf (safeAdd accum.value []) d = amountOf accum.value d := by
    intro d
    rw [amountOf_safeAdd hv sorted_nil d, amountOf_nil, add_zero]
  have hdiffs : SortedCoins (safeAdd accum.value
      (negCoins (safeAdd accum.value []))) :=
    sorted_safeAdd hv (sorted_negCoins hS)
  have hdiffd : ∀ d, amountOf (safeAdd accum.value
      (negCoins (safeAdd accum.value []))) d = 0 := by
    intro d
    rw [amountOf_safeAdd hv (sorted_negCoins hS) d, amountOf_negCoins, hSd d]
    ring
  have hno : isAnyNegative (safeAdd accum.value
      (negCoins (safeAdd accum.value []))) = false := by
    cases hb : isAnyNegative (safeAdd accum.value
      (negCoins (safeAdd accum.value []))) with
    | false => rfl
    | true =>
      exfalso
      rw [isAnyNegative_iff hdiffs] at hb
      obtain ⟨d, hd⟩ := hb
      rw [hdiffd d] at hd
      exact lt_irrefl 0 hd
  have hsub : subCoins accum.value (safeAdd accum.value []) =
      some (safeAdd accum.value (negCoins (safeAdd accum.value []))) := by
    simp [subCoins, safeSub, hno]
  have hpos : getPosition (initOrUpdatePosition accum accum.value index
      p.numShares [] p.options) index =
      .ok ⟨p.numShares, accum.value, [], p.options⟩ := by
    simp [getPosition, initOrUpdatePosition, formatPositionPrefixKey]
  have hrew : getTotalRewards (initOrUpdatePosition accum accum.value index
      p.numShares [] p.options) ⟨p.numShares, accum.value, [], p.options⟩ [] =
      some (safeAdd [] (mulDec (safeAdd accum.value
        (negCoins (safeAdd accum.value []))) p.numShares)) := by
    unfold getTotalRewards
    rw [show (initOrUpdatePosition accum accum.value index p.numShares []
      p.options).value = accum.value from rfl]
    rw [show (⟨p.numShares, accum.value, [], p.options⟩ : Record).initAccumValue
      = accum.value from rfl, hsub]
  have hclaim : ClaimRewards (initOrUpdatePosition accum accum.value index
      p.numShares [] p.options) index [] =
      some (safeAdd [] (mulDec (safeAdd accum.value
          (negCoins (safeAdd accum.value []))) p.numShares),
        initOrUpdatePosition (initOrUpdatePosition accum accum.value index
            p.numShares [] p.options)
          (initOrUpdatePosition accum accum.value index p.numShares []
            p.options).value index p.numShares [] p.options) := by
    unfold ClaimRewards
    rw [hpos]
    dsimp only
    rw [hrew]
  refine ⟨_, _, hclaim, fun d => ?_⟩
  rw [amountOf_safeAdd sorted_nil (sorted_mulDec hdiffs p.numShares) d,
    amountOf_nil, amountOf_mulDec hdiffs p.numShares d, hdiffd d]
  ring

theorem claimRewards_after_rebase_zero_witness :
    ∃ pay2 a2,
      ClaimRewards (initOrUpdatePosition
        ⟨fun k => if k = ("a", "p") then some ⟨1, [], [], none⟩ else none,
          "a", [⟨"u", 4⟩], 1⟩ [⟨"u", 4⟩] "p" 1 [] none) "p" [] =
        some (pay2, a2) ∧
      ∀ d, amountOf pay2 d = 0 :=
  claimRewards_after_rebase_zero
    ⟨fun k => if k = ("a", "p") then some ⟨1, [], [], none⟩ else none,
      "a", [⟨"u", 4⟩], 1⟩ ⟨1, [], [], none⟩ "p"
    (by simp [SortedCoins]) (by simp [formatPositionPrefixKey])

/-! ## Conservation over operation sequences (spec-modelled) -/

/-- Modelled from the spec: one funding or lifecycle call on an accumulator
(§6 of the spec); the growth-outside adjustments are the caller-supplied
parameters of the share-changing and claiming calls. -/
inductive Op where
  | increaseValue (delta : DecCoins)
  | createPosition (index : String) (numShares : ℚ) (options : Option Options)
  | addToPosition (index : String) (delta : ℚ) (growthOutside : DecCoins)
  | removeFromPosition (index : String) (delta : ℚ) (growthOutside : DecCoins)
  | claimRewards (index : String) (growthOutside : DecCoins)

/-- Modelled from the spec: the state of one accumulator with its live
positions, extended with the running totals of rewards ever funded
(`totalAdded`) and ever paid out (`totalPaid`) that the conservation
property compares. -/
structure SpecState where
  value : DecCoins
  totalShares : ℚ
  positions : List (String × Record)
  totalAdded : DecCoins
  totalPaid : DecCoins

def lookupPos : List (String × Record) → String → Option Record
  | [], _ => none
  | ip :: rest, idx => if ip.1 = idx then some ip.2 else lookupPos rest idx

def updatePos : List (String × Record) → String → Record →
    List (String × Record)
  | [], _, _ => []
  | ip :: rest, idx, q =>
    if ip.1 = idx then (ip.1, q) :: rest else ip :: updatePos rest idx q

def removePos : List (String × Record) → String → List (String × Record)
  | [], _ => []
  | ip :: rest, idx => if ip.1 = idx then rest else ip :: removePos rest idx

/-- The accumulator object a lifecycle operation hands to the reward
engine: only the current value (and share count) matter to
`getTotalRewards`. -/
def accumView (s : SpecState) : AccumulatorObject :=
  ⟨fun _ => none, "", s.value, s.totalShares⟩

/-- Modelled from the spec: one step of the lifecycle state machine (§4.1,
§4.4).  A failed call (missing or duplicate position, non-positive shares,
negative funding delta, excessive removal, aborted settlement) leaves the
state unchanged — the host discards the transaction.  `increaseValue`
distributes a funding delta by adding `delta / totalShares` to the
per-share value ("newly-collected rewards divided by current total
shares"), requiring a positive total; settlement follows §4.4
(`computeTotalRewards`, then re-base at the current value). -/
def step (s : SpecState) : Op → SpecState
  | .increaseValue delta =>
    if isAnyNegative delta || !decide (0 < s.totalShares) then s
    else
      { s with
        value := safeAdd s.value (mulDec delta s.totalShares⁻¹)
        totalAdded := safeAdd s.totalAdded delta }
  | .createPosition idx n o =>
    if (lookupPos s.positions idx).isSome || !decide (0 < n) then s
    else
      { s with
        positions := (idx, ⟨n, s.value, [], o⟩) :: s.positions
        totalShares := s.totalShares + n }
  | .addToPosition idx δ g =>
    match lookupPos s.positions idx with
    | none => s
    | some p =>
      match getTotalRewards (accumView s) p g with
      | none => s
      | some total =>
        { s with
          positions := updatePos s.positions idx
            ⟨p.numShares + δ, s.value, total, p.options⟩
          totalShares := s.totalShares + δ }
  | .removeFromPosition idx δ g =>
    match lookupPos s.positions idx with
    | none => s
    | some p =>
      if decide (p.numShares < δ) then s
      else
        match getTotalRewards (accumView s) p g with
        | none => s
        | some total =>
          if p.numShares - δ = 0 then
            { s with
              positions := removePos s.positions idx
              totalShares := s.totalShares - δ
              totalPaid := safeAdd s.totalPaid total }
          else
            { s with
              positions := updatePos s.positions idx
                ⟨p.numShares - δ, s.value, total, p.options⟩
              totalShares := s.totalShares - δ }
  | .claimRewards idx g =>
    match lookupPos s.positions idx with
    | none => s
    | some p =>
      match getTotalRewards (accumView s) p g with
      | none => s
      | some total =>
        { s with
          positions := updatePos s.positions idx
            ⟨p.numShares, s.value, [], p.options⟩
          totalPaid := safeAdd s.totalPaid total }

/-- A fresh accumulator: zero value, no shares, no positions, nothing
funded, nothing paid. -/
def initialState : SpecState := ⟨[], 0, [], [], []⟩

def runTrace (ops : List Op) : SpecState := ops.foldl step initialState

/-- The conservation measure of one live position at one denomination:
`unclaimedRewards + numShares × (value − initAccumValue)`. -/
def measureQ (value : DecCoins) (p : Record) (d : Denom) : ℚ :=
  amountOf p.unclaimedRewards d +
    p.numShares * (amountOf value d - amountOf p.initAccumValue d)

def sumRewards (value : DecCoins) (ps : List (String × Record)) (d : Denom) :
    ℚ :=
  (ps.map (fun ip => measureQ value ip.2 d)).sum

/-- The live positions' total rewards as computed by `getTotalRewards`
(zero growth-outside), summed at one denomination. -/
def sumClaims (s : SpecState) (d : Denom) : ℚ :=
  (s.positions.map (fun ip =>
    amountOf ((getTotalRewards (accumView s) ip.2 []).getD []) d)).sum

/-- Validity of a call's multi-denomination inputs: funding deltas are
canonically sorted, and every growth-outside adjustment supplied is zero. -/
def OpValid : Op → Prop
  | .increaseValue delta => SortedCoins delta
  | .createPosition _ _ _ => True
  | .addToPosition _ _ g => g = []
  | .removeFromPosition _ _ g => g = []
  | .claimRewards _ g => g = []

theorem lookupPos_mem {l : List (String × Record)} {idx : String} {p : Record}
    (h : lookupPos l idx = some p) : (idx, p) ∈ l := by
  induction l with
  | nil => cases h
  | cons ip rest ih =>
    unfold lookupPos at h
    by_cases h1 : ip.1 = idx
    · rw [if_pos h1] at h
      injection h with h2
      subst h1
      subst h2
      exact List.mem_cons_self _ _
    · rw [if_neg h1] at h
      exact List.mem_cons_of_mem _ (ih h)

theorem sum_updatePos (f : Record → ℚ) {l : List (String × Record)}
    {idx : String} {p : Record} (h : lookupPos l idx = some p) (q : Record) :
    ((updatePos l idx q).map (fun ip => f ip.2)).sum =
      (l.map (fun ip => f ip.2)).sum - f p + f q := by
  induction l with
  | nil => cases h
  | cons ip rest ih =>
    unfold lookupPos at h
    unfold updatePos
    by_cases h1 : ip.1 = idx
    · rw [if_pos h1] at h
      injection h with h2
      subst h2
      rw [if_pos h1]
      simp only [List.map_cons, List.sum_cons]
      ring
    · rw [if_neg h1] at h
      rw [if_neg h1]
      simp only [List.map_cons, List.sum_cons, ih h]
      ring

theorem sum_removePos (f : Record → ℚ) {l : List (String × Record)}
    {idx : String} {p : Record} (h : lookupPos l idx = some p) :
    ((removePos l idx).map (fun ip => f ip.2)).sum =
      (l.map (fun ip => f ip.2)).sum - f p := by
  induction l with
  | nil => cases h
  | cons ip rest ih =>
    unfold lookupPos at h
    unfold removePos
    by_cases h1 : ip.1 = idx
    · rw [if_pos h1] at h
      injection h with h2
      subst h2
      rw [if_pos h1]
      simp only [List.map_cons, List.sum_cons]
      ring
    · rw [if_neg h1] at h
      rw [if_neg h1]
      simp only [List.map_cons, List.sum_cons, ih h]
      ring

theorem mem_updatePos {l : List (String × Record)} {idx : String} {q : Record}
    {ip : String × Record} (h : ip ∈ updatePos l idx q) :
    ip ∈ l ∨ ip.2 = q := by
  induction l with
  | nil => cases h
  | cons hd rest ih =>
    unfold updatePos at h
    by_cases h1 : hd.1 = idx
    · rw [if_pos h1] at h
      rcases List.mem_cons.mp h with rfl | h2
      · exact Or.inr rfl
      · exact Or.inl (List.mem_cons_of_mem _ h2)
    · rw [if_neg h1] at h
      rcases List.mem_cons.mp h with rfl | h2
      · exact Or.inl (List.mem_cons_self _ _)
      · rcases ih h2 with h3 | h3
        · exact Or.inl (List.mem_cons_of_mem _ h3)
        · exact Or.inr h3

theorem mem_removePos {l : List (String × Record)} {idx : String}
    {ip : String × Record} (h : ip ∈ removePos l idx) : ip ∈ l := by
  induction l with
  | nil => cases h
  | cons hd rest ih =>
    unfold removePos at h
    by_cases h1 : hd.1 = idx
    · rw [if_pos h1] at h
      exact List.mem_cons_of_mem _ h
    · rw [if_neg h1] at h
      rcases List.mem_cons.mp h with rfl | h2
      · exact List.mem_cons_self _ _
      · exact List.mem_cons_of_mem _ (ih h2)

def sumShares (ps : List (String × Record)) : ℚ :=
  (ps.map (fun ip => ip.2.numShares)).sum

theorem sumShares_updatePos {l : List (String × Record)} {idx : String}
    {p : Record} (h : lookupPos l idx = some p) (q : Record) :
    sumShares (updatePos l idx q) = sumShares l - p.numShares + q.numShares :=
  sum_updatePos (fun r => r.numShares) h q

theorem sumShares_removePos {l : List (String × Record)} {idx : String}
    {p : Record} (h : lookupPos l idx = some p) :
    sumShares (removePos l idx) = sumShares l - p.numShares :=
  sum_removePos (fun r => r.numShares) h

theorem sumRewards_updatePos (v : DecCoins) (d : Denom)
    {l : List (String × Record)} {idx : String} {p : Record}
    (h : lookupPos l idx = some p) (q : Record) :
    sumRewards v (updatePos l idx q) d =
      sumRewards v l d - measureQ v p d + measureQ v q d :=
  sum_updatePos (fun r => measureQ v r d) h q

theorem sumRewards_removePos (v : DecCoins) (d : Denom)
    {l : List (String × Record)} {idx : String} {p : Record}
    (h : lookupPos l idx = some p) :
    sumRewards v (removePos l idx) d = sumRewards v l d - measureQ v p d :=
  sum_removePos (fun r => measureQ v r d) h

theorem sumRewards_cons (v : DecCoins) (ip : String × Record)
    (ps : List (String × Record)) (d : Denom) :
    sumRewards v (ip :: ps) d = measureQ v ip.2 d + sumRewards v ps d := by
  simp [sumRewards]

/-- Shifting every denomination of the value by a constant shifts the
conservation sum by total shares times that constant. -/
theorem sumRewards_value_shift (ps : List (String × Record))
    (v v' : DecCoins) (d : Denom) (c : ℚ)
    (h : amountOf v' d = amountOf v d + c) :
    sumRewards v' ps d = sumRewards v ps d + sumShares ps * c := by
  induction ps with
  | nil => simp [sumRewards, sumShares]
  | cons ip rest ih =>
    simp only [sumRewards, sumShares, List.map_cons, List.sum_cons] at ih ⊢
    rw [ih]
    unfold measureQ
    rw [h]
    ring

/-- With zero growth-outside and a dominating accumulator value, the reward
computation completes and equals the conservation measure. -/
theorem getTotalRewards_zero_growth {accum : AccumulatorObject} {p : Record}
    (hv : SortedCoins accum.value) (hi : SortedCoins p.initAccumValue)
    (hu : SortedCoins p.unclaimedRewards)
    (hle : ∀ d, amountOf p.initAccumValue d ≤ amountOf accum.value d) :
    ∃ r, getTotalRewards accum p [] = some r ∧ SortedCoins r ∧
      ∀ d, amountOf r d = measureQ accum.value p d := by
  cases h : getTotalRewards accum p [] with
  | none =>
    rw [getTotalRewards_none_iff hv hi sorted_nil] at h
    obtain ⟨d, hd⟩ := h
    rw [amountOf_nil] at hd
    exact absurd hd (not_lt.mpr (by linarith [hle d]))
  | some r =>
    obtain ⟨hrs, hf⟩ := getTotalRewards_some_spec hv hi hu sorted_nil h
    refine ⟨r, rfl, hrs, fun d => ?_⟩
    rw [hf d, amountOf_nil]
    unfold measureQ
    ring

/-- The inductive invariant of the lifecycle state machine: the stored coin
sets are canonical, every live snapshot is dominated by the current value,
the share counter is the sum of live shares, and conservation holds. -/
structure Inv (s : SpecState) : Prop where
  hval : SortedCoins s.value
  hpos : ∀ ip ∈ s.positions, SortedCoins ip.2.initAccumValue ∧
    SortedCoins ip.2.unclaimedRewards ∧
    ∀ d, amountOf ip.2.initAccumValue d ≤ amountOf s.value d
  hsh : s.totalShares = sumShares s.positions
  hcons : ∀ d, amountOf s.totalPaid d + sumRewards s.value s.positions d =
    amountOf s.totalAdded d
  hpaid : SortedCoins s.totalPaid
  hadd : SortedCoins s.totalAdded

theorem initial_inv : Inv initialState := by
  constructor
  · exact sorted_nil
  · intro ip hip
    cases hip
  · simp [initialState, sumShares]
  · intro d
    simp [initialState, sumRewards, amountOf_nil]
  · exact sorted_nil
  · exact sorted_nil

theorem step_preserves {s : SpecState} (hs : Inv s) :
    ∀ {op : Op}, OpValid op → Inv (step s op) := by
  intro op hop
  cases op with
  | increaseValue delta =>
    have hds : SortedCoins delta := hop
    by_cases hg : (isAnyNegative delta || !decide (0 < s.totalShares)) = true
    · rw [show step s (.increaseValue delta) = s by simp [step, hg]]
      exact hs
    · rw [Bool.or_eq_true, not_or] at hg
      obtain ⟨h1, h2⟩ := hg
      have hnn : isAnyNegative delta = false := by
        cases hb : isAnyNegative delta with
        | false => rfl
        | true => exact absurd hb h1
      have hT : 0 < s.totalShares := by
        by_contra hc
        exact h2 (by simp [hc])
      have hstep : step s (.increaseValue delta) =
          { s with
            value := safeAdd s.value (mulDec delta s.totalShares⁻¹)
            totalAdded := safeAdd s.totalAdded delta } := by
        simp [step, hnn, hT]
      rw [hstep]
      have hshift : ∀ d, amountOf (safeAdd s.value
          (mulDec delta s.totalShares⁻¹)) d =
          amountOf s.value d + amountOf delta d * s.totalShares⁻¹ := by
        intro d
        rw [amountOf_safeAdd hs.hval (sorted_mulDec hds _) d,
          amountOf_mulDec hds _ d]
      constructor
      · exact sorted_safeAdd hs.hval (sorted_mulDec hds _)
      · intro ip hip
        obtain ⟨ha1, ha2, ha3⟩ := hs.hpos ip hip
        refine ⟨ha1, ha2, fun d => ?_⟩
        have h0 : 0 ≤ amountOf delta d :=
          amountOf_nonneg_of_not_isAnyNegative hnn d
        have h1 : 0 ≤ amountOf delta d * s.totalShares⁻¹ :=
          mul_nonneg h0 (inv_nonneg.mpr (le_of_lt hT))
        rw [hshift d]
        linarith [ha3 d]
      · exact hs.hsh
      · intro d
        rw [sumRewards_value_shift s.positions s.value _ d
          (amountOf delta d * s.totalShares⁻¹) (hshift d),
          amountOf_safeAdd hs.hadd hds d, ← hs.hsh]
        have hc : s.totalShares * (amountOf delta d * s.totalShares⁻¹) =
            amountOf delta d := by
          rw [mul_comm (amountOf delta d) _, ← mul_assoc,
            mul_inv_cancel₀ (ne_of_gt hT), one_mul]
        linarith [hs.hcons d]
      · exact hs.hpaid
      · exact sorted_safeAdd hs.hadd hds
  | createPosition idx n o =>
    by_cases hg : ((lookupPos s.positions idx).isSome || !decide (0 < n)) = true
    · rw [show step s (.createPosition idx n o) = s by simp [step, hg]]
      exact hs
    · have hstep : step s (.createPosition idx n o) =
          { s with
            positions := (idx, ⟨n, s.value, [], o⟩) :: s.positions
            totalShares := s.totalShares + n } := by
        simp only [step]
        rw [if_neg hg]
      rw [hstep]
      constructor
      · exact hs.hval
      · intro ip hip
        rcases List.mem_cons.mp hip with rfl | hmem
        · exact ⟨hs.hval, sorted_nil, fun d => le_refl _⟩
        · exact hs.hpos ip hmem
      · rw [show sumShares ((idx, ⟨n, s.value, [], o⟩) :: s.positions) =
          n + sumShares s.positions by simp [sumShares], hs.hsh]
        ring
      · intro d
        rw [sumRewards_cons]
        have hm : measureQ s.value ((idx, (⟨n, s.value, [], o⟩ : Record)) :
            String × Record).2 d = 0 := by
          unfold measureQ
          simp [amountOf_nil]
        rw [hm, zero_add]
        exact hs.hcons d
      · exact hs.hpaid
      · exact hs.hadd
  | addToPosition idx δ g =>
    have hg : g = [] := hop
    subst hg
    cases hl : lookupPos s.positions idx with
    | none =>
      rw [show step s (.addToPosition idx δ []) = s by simp [step, hl]]
      exact hs
    | some p =>
      obtain ⟨hp1, hp2, hp3⟩ := hs.hpos _ (lookupPos_mem hl)
      obtain ⟨total, htot, htots, htotd⟩ :=
        @getTotalRewards_zero_growth (accumView s) p hs.hval hp1 hp2 hp3
      have hstep : step s (.addToPosition idx δ []) =
          { s with
            positions := updatePos s.positions idx
              ⟨p.numShares + δ, s.value, total, p.options⟩
            totalShares := s.totalShares + δ } := by
        simp [step, hl, htot]
      rw [hstep]
      constructor
      · exact hs.hval
      · intro ip hip
        rcases mem_updatePos hip with hmem | hq
        · exact hs.hpos ip hmem
        · rw [hq]
          exact ⟨hs.hval, htots, fun d => le_refl _⟩
      · rw [sumShares_updatePos hl, ← hs.hsh]
        show s.totalShares + δ =
          s.totalShares - p.numShares +
            (⟨p.numShares + δ, s.value, total, p.options⟩ : Record).numShares
        show s.totalShares + δ = s.totalShares - p.numShares + (p.numShares + δ)
        ring
      · intro d
        rw [sumRewards_updatePos s.value d hl]
        have hq : measureQ s.value
            (⟨p.numShares + δ, s.value, total, p.options⟩ : Record) d =
            amountOf total d := by
          unfold measureQ
          simp
        rw [hq, htotd d]
        have := hs.hcons d
        show amountOf s.totalPaid d + (sumRewards s.value s.positions d -
          measureQ s.value p d + measureQ (accumView s).value p d) =
          amountOf s.totalAdded d
        show amountOf s.totalPaid d + (sumRewards s.value s.positions d -
          measureQ s.value p d + measureQ s.value p d) =
          amountOf s.totalAdded d
        linarith
      · exact hs.hpaid
      · exact hs.hadd
  | removeFromPosition idx δ g =>
    have hg : g = [] := hop
    subst hg
    cases hl : lookupPos s.positions idx with
    | none =>
      rw [show step s (.removeFromPosition idx δ []) = s by simp [step, hl]]
      exact hs
    | some p =>
      by_cases hins : p.numShares < δ
      · rw [show step s (.removeFromPosition idx δ []) = s by
          simp [step, hl, hins]]
        exact hs
      · obtain ⟨hp1, hp2, hp3⟩ := hs.hpos _ (lookupPos_mem hl)
        obtain ⟨total, htot, htots, htotd⟩ :=
          @getTotalRewards_zero_growth (accumView s) p hs.hval hp1 hp2 hp3
        by_cases hzero : p.numShares - δ = 0
        · have hstep : step s (.removeFromPosition idx δ []) =
              { s with
                positions := removePos s.positions idx
                totalShares := s.totalShares - δ
                totalPaid := safeAdd s.totalPaid total } := by
            simp [step, hl, hins, htot, hzero]
          rw [hstep]
          constructor
          · exact hs.hval
          · intro ip hip
            exact hs.hpos ip (mem_removePos hip)
          · rw [sumShares_removePos hl, ← hs.hsh, sub_eq_zero.mp hzero]
          · intro d
            rw [sumRewards_removePos s.value d hl,
              amountOf_safeAdd hs.hpaid htots d, htotd d]
            have := hs.hcons d
            show amountOf s.totalPaid d + measureQ (accumView s).value p d +
              (sumRewards s.value s.positions d - measureQ s.value p d) =
              amountOf s.totalAdded d
            show amountOf s.totalPaid d + measureQ s.value p d +
              (sumRewards s.value s.positions d - measureQ s.value p d) =
              amountOf s.totalAdded d
            linarith
          · exact sorted_safeAdd hs.hpaid htots
          · exact hs.hadd
        · have hstep : step s (.removeFromPosition idx δ []) =
              { s with
                positions := updatePos s.positions idx
                  ⟨p.numShares - δ, s.value, total, p.options⟩
                totalShares := s.totalShares - δ } := by
            simp [step, hl, hins, htot, hzero]
          rw [hstep]
          constructor
          · exact hs.hval
          · intro ip hip
            rcases mem_updatePos hip with hmem | hq
            · exact hs.hpos ip hmem
            · rw [hq]
              exact ⟨hs.hval, htots, fun d => le_refl _⟩
          · rw [sumShares_updatePos hl, ← hs.hsh]
            show s.totalShares - δ = s.totalShares - p.numShares +
              (⟨p.numShares - δ, s.value, total, p.options⟩ : Record).numShares
            show s.totalShares - δ =
              s.totalShares - p.numShares + (p.numShares - δ)
            ring
          · intro d
            rw [sumRewards_updatePos s.value d hl]
            have hq : measureQ s.value
                (⟨p.numShares - δ, s.value, total, p.options⟩ : Record) d =
                amountOf total d := by
              unfold measureQ
              simp
            rw [hq, htotd d]
            have := hs.hcons d
            show amountOf s.totalPaid d + (sumRewards s.value s.positions d -
              measureQ s.value p d + measureQ (accumView s).value p d) =
              amountOf s.totalAdded d
            show amountOf s.totalPaid d + (sumRewards s.value s.positions d -
              measureQ s.value p d + measureQ s.value p d) =
              amountOf s.totalAdded d
            linarith
          · exact hs.hpaid
          · exact hs.hadd
  | claimRewards idx g =>
    have hg : g = [] := hop
    subst hg
    cases hl : lookupPos s.positions idx with
    | none =>
      rw [show step s (.claimRewards idx []) = s by simp [step, hl]]
      exact hs
    | some p =>
      obtain ⟨hp1, hp2, hp3⟩ := hs.hpos _ (lookupPos_mem hl)
      obtain ⟨total, htot, htots, htotd⟩ :=
        @getTotalRewards_zero_growth (accumView s) p hs.hval hp1 hp2 hp3
      have hstep : step s (.claimRewards idx []) =
          { s with
            positions := updatePos s.positions idx
              ⟨p.numShares, s.value, [], p.options⟩
            totalPaid := safeAdd s.totalPaid total } := by
        simp [step, hl, htot]
      rw [hstep]
      constructor
      · exact hs.hval
      · intro ip hip
        rcases mem_updatePos hip with hmem | hq
        · exact hs.hpos ip hmem
        · rw [hq]
          exact ⟨hs.hval, sorted_nil, fun d => le_refl _⟩
      · rw [sumShares_updatePos hl, ← hs.hsh]
        show s.totalShares = s.totalShares - p.numShares +
          (⟨p.numShares, s.value, [], p.options⟩ : Record).numShares
        show s.totalShares = s.totalShares - p.numShares + p.numShares
        ring
      · intro d
        rw [sumRewards_updatePos s.value d hl,
          amountOf_safeAdd hs.hpaid htots d, htotd d]
        have hq : measureQ s.value
            (⟨p.numShares, s.value, [], p.options⟩ : Record) d = 0 := by
          unfold measureQ
          simp [amountOf_nil]
        rw [hq]
        have := hs.hcons d
        show amountOf s.totalPaid d + measureQ (accumView s).value p d +
          (sumRewards s.value s.positions d - measureQ s.value p d + 0) =
          amountOf s.totalAdded d
        show amountOf s.totalPaid d + measureQ s.value p d +
          (sumRewards s.value s.positions d - measureQ s.value p d + 0) =
          amountOf s.totalAdded d
        linarith
      · exact sorted_safeAdd hs.hpaid htots
      · exact hs.hadd

theorem foldl_inv : ∀ (ops : List Op) (s : SpecState), Inv s →
    (∀ op ∈ ops, OpValid op) → Inv (ops.foldl step s) := by
  intro ops
  induction ops with
  | nil =>
    intro s hs _
    exact hs
  | cons op rest ih =>
    intro s hs hops
    exact ih _ (step_preserves hs (hops op (List.mem_cons_self _ _)))
      (fun o ho => hops o (List.mem_cons_of_mem _ ho))

theorem runTrace_inv (ops : List Op) (h : ∀ op ∈ ops, OpValid op) :
    Inv (runTrace ops) :=
  foldl_inv ops initialState initial_inv h

/-- Under the invariant every live position's reward computation completes. -/
theorem claims_defined {s : SpecState} (hs : Inv s) :
    ∀ ip ∈ s.positions,
      (getTotalRewards (accumView s) ip.2 []).isSome = true := by
  intro ip hip
  obtain ⟨h1, h2, h3⟩ := hs.hpos ip hip
  obtain ⟨r, hr, _, _⟩ :=
    @getTotalRewards_zero_growth (accumView s) ip.2 hs.hval h1 h2 h3
  rw [hr]
  rfl

/-- Under the invariant the `getTotalRewards`-computed live total equals the
conservation measure, summed over all live positions. -/
theorem sumClaims_eq_sumRewards {s : SpecState} (hs : Inv s) (d : Denom) :
    sumClaims s d = sumRewards s.value s.positions d := by
  have key : ∀ (l : List (String × Record)),
      (∀ ip ∈ l, SortedCoins ip.2.initAccumValue ∧
        SortedCoins ip.2.unclaimedRewards ∧
        ∀ e, amountOf ip.2.initAccumValue e ≤ amountOf s.value e) →
      (l.map (fun ip =>
        amountOf ((getTotalRewards (accumView s) ip.2 []).getD []) d)).sum =
        (l.map (fun ip => measureQ s.value ip.2 d)).sum := by
    intro l
    induction l with
    | nil =>
      intro _
      rfl
    | cons ip rest ih =>
      intro hl
      obtain ⟨h1, h2, h3⟩ := hl ip (List.mem_cons_self _ _)
      obtain ⟨r, hr, _, hrd⟩ :=
        @getTotalRewards_zero_growth (accumView s) ip.2 hs.hval h1 h2 h3
      simp only [List.map_cons, List.sum_cons]
      rw [hr, Option.getD_some, hrd d,
        ih (fun x hx => hl x (List.mem_cons_of_mem _ hx))]
      rfl
  exact key s.positions hs.hpos

/-- C2 (amended): for any sequence of well-formed `IncreaseValue`,
`CreatePosition`, `AddToPosition`, `RemoveFromPosition`, `ClaimRewards`
calls on one accumulator in which every growth-outside adjustment supplied
is zero (non-ranged operation), the sum of all claim/removal payouts plus
all live positions' computed total rewards (as computed by
`getTotalRewards`) equals the sum of all successfully applied
`IncreaseValue` deltas, for every denomination, exactly; no operation
creates or destroys value.  (The counterexample shows the equality fails
for a sequence that supplies a nonzero growth-outside adjustment.) -/
theorem conservation_zero_growth (ops : List Op)
    (hops : ∀ op ∈ ops, OpValid op) :
    (∀ ip ∈ (runTrace ops).positions,
      (getTotalRewards (accumView (runTrace ops)) ip.2 []).isSome = true) ∧
    ∀ d, amountOf (runTrace ops).totalPaid d + sumClaims (runTrace ops) d =
      amountOf (runTrace ops).totalAdded d := by
  have hinv := runTrace_inv ops hops
  refine ⟨claims_defined hinv, fun d => ?_⟩
  rw [sumClaims_eq_sumRewards hinv d]
  exact hinv.hcons d

theorem conservation_zero_growth_witness :
    (∀ ip ∈ (runTrace [.createPosition "a" 100 none,
        .increaseValue [⟨"uX", 10⟩], .createPosition "b" 100 none,
        .increaseValue [⟨"uX", 10⟩], .claimRewards "a" [],
        .claimRewards "b" []]).positions,
      (getTotalRewards (accumView (runTrace [.createPosition "a" 100 none,
        .increaseValue [⟨"uX", 10⟩], .createPosition "b" 100 none,
        .increaseValue [⟨"uX", 10⟩], .claimRewards "a" [],
        .claimRewards "b" []])) ip.2 []).isSome = true) ∧
    ∀ d, amountOf (runTrace [.createPosition "a" 100 none,
        .increaseValue [⟨"uX", 10⟩], .createPosition "b" 100 none,
        .increaseValue [⟨"uX", 10⟩], .claimRewards "a" [],
        .claimRewards "b" []]).totalPaid d +
      sumClaims (runTrace [.createPosition "a" 100 none,
        .increaseValue [⟨"uX", 10⟩], .createPosition "b" 100 none,
        .increaseValue [⟨"uX", 10⟩], .claimRewards "a" [],
        .claimRewards "b" []]) d =
      amountOf (runTrace [.createPosition "a" 100 none,
        .increaseValue [⟨"uX", 10⟩], .createPosition "b" 100 none,
        .increaseValue [⟨"uX", 10⟩], .claimRewards "a" [],
        .claimRewards "b" []]).totalAdded d :=
  conservation_zero_growth [.createPosition "a" 100 none,
    .increaseValue [⟨"uX", 10⟩], .createPosition "b" 100 none,
    .increaseValue [⟨"uX", 10⟩], .claimRewards "a" [], .claimRewards "b" []]
    (by
      intro op hop
      simp only [List.mem_cons, List.not_mem_nil, or_false] at hop
      rcases hop with rfl | rfl | rfl | rfl | rfl | rfl <;>
        simp [OpValid, SortedCoins])

/-- C2 counterexample: conservation fails as soon as a nonzero growth-outside
adjustment is supplied.  After `CreatePosition("p", 1 share)`,
`IncreaseValue({u: 4})` and `ClaimRewards("p", growthOutside = {u: 1})`,
the payouts plus the live positions' computed rewards amount to 3 in
denomination `u`, but 4 was funded: the claimed growth-outside excluded one
unit from the position's payout without any other position absorbing it. -/
theorem conservation_nonzero_growth_cex :
    amountOf (runTrace [.createPosition "p" 1 none,
        .increaseValue [⟨"u", 4⟩], .claimRewards "p" [⟨"u", 1⟩]]).totalPaid
        "u" +
      sumClaims (runTrace [.createPosition "p" 1 none,
        .increaseValue [⟨"u", 4⟩], .claimRewards "p" [⟨"u", 1⟩]]) "u" ≠
    amountOf (runTrace [.createPosition "p" 1 none,
        .increaseValue [⟨"u", 4⟩], .claimRewards "p" [⟨"u", 1⟩]]).totalAdded
        "u" := by
  norm_num [runTrace, initialState, step, lookupPos, updatePos, accumView,
    sumClaims, sumRewards, measureQ, getTotalRewards, subCoins, safeSub,
    safeAdd, safeAddLoop, negCoins, isAnyNegative, removeZeroDecCoins,
    mulDec, amountOf, List.find?]

/-- The spec's own concrete scenario, reproduced by the model: starting from
an empty accumulator, `CreatePosition("a", 100)`, `IncreaseValue({uX: 10})`,
`CreatePosition("b", 100)`, `IncreaseValue({uX: 10})`; claiming for "a"
pays `uX: 15`, and claiming for "b" immediately after brings the total
paid to `uX: 20` (so "b" received `uX: 5`). -/
theorem scenario_two_positions :
    (runTrace [.createPosition "a" 100 none, .increaseValue [⟨"uX", 10⟩],
      .createPosition "b" 100 none, .increaseValue [⟨"uX", 10⟩],
      .claimRewards "a" []]).totalPaid = [⟨"uX", 15⟩] ∧
    (runTrace [.createPosition "a" 100 none, .increaseValue [⟨"uX", 10⟩],
      .createPosition "b" 100 none, .increaseValue [⟨"uX", 10⟩],
      .claimRewards "a" [], .claimRewards "b" []]).totalPaid =
      [⟨"uX", 20⟩] := by
  have hab : ¬ ("a" : String) = "b" := by decide
  have hba : ¬ ("b" : String) = "a" := by decide
  constructor <;>
    norm_num [hab, hba, runTrace, initialState, step, lookupPos, updatePos,
      accumView, getTotalRewards, subCoins, safeSub, safeAdd, safeAddLoop,
      negCoins, isAnyNegative, removeZeroDecCoins, mulDec, amountOf,
      List.find?]

end Accum
